import Mathlib

/-!
Shallow embedding of the container core of `demo/src/containers.hpp`:
`Stack<T>`, `RingBuffer<T, N>` and `Result<T, E>`, together with the
error conditions they throw.  C++ member state becomes Lean structures,
mutating members become state-passing functions, and a thrown exception
becomes an explicit error value; a fallible member returns the post-call
object alongside its result, so that "the container is unchanged on
failure" is directly statable.
-/

namespace Containers

/-- The error conditions of the container core.  `overflow` embeds
`BufferOverflow`, `underflow` embeds `BufferUnderflow` (both derive from
`ContainerError`), and `wrongVariantAccess` embeds the
`std::bad_variant_access` that `std::get` raises inside
`Result::value` / `Result::error`. -/
inductive ErrKind where
  | overflow
  | underflow
  | wrongVariantAccess
  deriving DecidableEq

/-- The fixed descriptive message each condition carries: the strings the
`BufferOverflow` / `BufferUnderflow` constructors pass to `ContainerError`,
and the fixed (unparameterized) message of `std::bad_variant_access`. -/
def ErrKind.message : ErrKind → String
  | .overflow => "buffer overflow: container is full"
  | .underflow => "buffer underflow: container is empty"
  | .wrongVariantAccess => "bad variant access"

/-- `Stack<T>`: a LIFO stack backed by `std::vector<T> data_`; the vector's
back is the list's last element. -/
structure Stack (T : Type) where
  data_ : List T
  deriving DecidableEq

namespace Stack

variable {T : Type}

/-- `push`: `data_.push_back(value)`. -/
def push (s : Stack T) (value : T) : Stack T :=
  ⟨s.data_ ++ [value]⟩

/-- `pop`: throws `BufferUnderflow` when `data_.empty()`, otherwise removes
and returns `data_.back()`.  `getLast?` is `none` exactly when the vector is
empty; the pair's second component is the stack after the call. -/
def pop (s : Stack T) : Except ErrKind T × Stack T :=
  match s.data_.getLast? with
  | none => (Except.error ErrKind.underflow, s)
  | some v => (Except.ok v, ⟨s.data_.dropLast⟩)

/-- `top`: throws `BufferUnderflow` when empty, otherwise returns
`data_.back()` without modifying the stack (a `const` member). -/
def top (s : Stack T) : Except ErrKind T :=
  match s.data_.getLast? with
  | none => Except.error ErrKind.underflow
  | some v => Except.ok v

/-- `empty()`: `data_.empty()`. -/
def empty (s : Stack T) : Bool :=
  s.data_.isEmpty

/-- `size()`: `data_.size()`. -/
def size (s : Stack T) : Nat :=
  s.data_.length

/-- `clear()`: `data_.clear()`. -/
def clear (_ : Stack T) : Stack T :=
  ⟨[]⟩

end Stack

/-- `RingBuffer<T, N>`: fixed backing array `buf_` (length `N`), read index
`head_`, write index `tail_` and element count `size_`. -/
structure RingBuffer (T : Type) (N : Nat) where
  buf_ : List T
  head_ : Nat
  tail_ : Nat
  size_ : Nat
  deriving DecidableEq

namespace RingBuffer

variable {T : Type} {N : Nat}

/-- The default-constructed buffer: `std::array<T, N> buf_{}` value-initializes
all `N` slots, and the three indices start at `0`. -/
def init (T : Type) [Inhabited T] (N : Nat) : RingBuffer T N :=
  { buf_ := List.replicate N default, head_ := 0, tail_ := 0, size_ := 0 }

/-- `empty()`: `size_ == 0`. -/
def empty (s : RingBuffer T N) : Bool :=
  s.size_ == 0

/-- `full()`: `size_ == N`. -/
def full (s : RingBuffer T N) : Bool :=
  s.size_ == N

/-- `size()`: `size_`. -/
def size (s : RingBuffer T N) : Nat :=
  s.size_

/-- `capacity()`: `N`. -/
def capacity (_ : RingBuffer T N) : Nat :=
  N

/-- `write`: throws `BufferOverflow` when `full()` (leaving the object as it
was), otherwise stores `value` at `tail_`, advances `tail_` modulo `N` and
increments `size_`. -/
def write (s : RingBuffer T N) (value : T) : Option ErrKind × RingBuffer T N :=
  if s.full then (some ErrKind.overflow, s)
  else (none, { s with buf_ := s.buf_.set s.tail_ value,
                       tail_ := (s.tail_ + 1) % N,
                       size_ := s.size_ + 1 })

/-- `read`: throws `BufferUnderflow` when `empty()` (leaving the object as it
was), otherwise returns `buf_[head_]`, advances `head_` modulo `N` and
decrements `size_`. -/
def read [Inhabited T] (s : RingBuffer T N) : Except ErrKind T × RingBuffer T N :=
  if s.empty then (Except.error ErrKind.underflow, s)
  else (Except.ok (s.buf_.getD s.head_ default),
        { s with head_ := (s.head_ + 1) % N, size_ := s.size_ - 1 })

end RingBuffer

/-- `Result<T, E>`: `std::variant<T, E> data_`, holding exactly one of a
success value (first alternative) or an error value (second alternative). -/
structure Result (T E : Type) where
  data_ : T ⊕ E
  deriving DecidableEq

namespace Result

variable {T E : Type}

/-- `Result::ok`: constructs the success variant. -/
def ok (value : T) : Result T E :=
  ⟨Sum.inl value⟩

/-- `Result::err`: constructs the error variant. -/
def err (e : E) : Result T E :=
  ⟨Sum.inr e⟩

/-- `is_ok()`: `std::holds_alternative<T>(data_)`. -/
def is_ok (r : Result T E) : Bool :=
  r.data_.isLeft

/-- `is_err()`: `!is_ok()`. -/
def is_err (r : Result T E) : Bool :=
  !r.is_ok

/-- `value()`: `std::get<T>(data_)`, which raises `std::bad_variant_access`
on the error variant. -/
def value (r : Result T E) : Except ErrKind T :=
  match r.data_ with
  | Sum.inl v => Except.ok v
  | Sum.inr _ => Except.error ErrKind.wrongVariantAccess

/-- `error()`: `std::get<E>(data_)`, which raises `std::bad_variant_access`
on the success variant. -/
def error (r : Result T E) : Except ErrKind E :=
  match r.data_ with
  | Sum.inl _ => Except.error ErrKind.wrongVariantAccess
  | Sum.inr e => Except.ok e

end Result

end Containers

namespace Containers

/-! ### Claim C1 and C6: the Result sum type -/

/-- Claim C1: on every `Result<T, E>`, `value()` on the error variant and
`error()` on the success variant fail with the `wrongVariantAccess`
condition — a typed condition, distinct from the `underflow` and `overflow`
kinds (so callers distinguish the kinds programmatically), and carrying a
fixed per-kind descriptive message that also differs from the messages of
the other two kinds. -/
theorem result_wrong_variant_access (T E : Type) (v : T) (e : E) :
    (Result.err e : Result T E).value = Except.error ErrKind.wrongVariantAccess ∧
    (Result.ok v : Result T E).error = Except.error ErrKind.wrongVariantAccess ∧
    ErrKind.wrongVariantAccess ≠ ErrKind.underflow ∧
    ErrKind.wrongVariantAccess ≠ ErrKind.overflow ∧
    ErrKind.wrongVariantAccess.message ≠ ErrKind.underflow.message ∧
    ErrKind.wrongVariantAccess.message ≠ ErrKind.overflow.message := by
  refine ⟨rfl, rfl, by decide, by decide, ?_, ?_⟩ <;> decide

/-- Claim C6: `ok(v)` yields an instance with `is_ok()` true, `is_err()`
false and `value()` returning exactly `v`; `err(e)` yields the converse with
`error()` returning exactly `e`; and on every instance exactly one of
`is_ok()` and `is_err()` holds. -/
theorem result_exclusivity (T E : Type) (v : T) (e : E) :
    (Result.ok v : Result T E).is_ok = true ∧
    (Result.ok v : Result T E).is_err = false ∧
    (Result.ok v : Result T E).value = Except.ok v ∧
    (Result.err e : Result T E).is_err = true ∧
    (Result.err e : Result T E).is_ok = false ∧
    (Result.err e : Result T E).error = Except.ok e ∧
    (∀ r : Result T E,
      (r.is_ok = true ∧ r.is_err = false) ∨ (r.is_ok = false ∧ r.is_err = true)) := by
  refine ⟨rfl, rfl, rfl, rfl, rfl, rfl, ?_⟩
  intro r
  rcases r with ⟨d⟩
  cases d with
  | inl v => exact Or.inl ⟨rfl, rfl⟩
  | inr e => exact Or.inr ⟨rfl, rfl⟩

/-! ### Claim C5: underflow on empty containers -/

/-- Claim C5: on an empty `Stack`, `pop()` and `top()` fail with the
`underflow` condition, and on an empty `RingBuffer`, `read()` fails with
`underflow`; in all cases the container is left unchanged with `size()`
equal to `0`. -/
theorem underflow_law (T : Type) [Inhabited T] (N : Nat)
    (st : Stack T) (hst : st.empty = true)
    (rb : RingBuffer T N) (hrb : rb.empty = true) :
    st.pop = (Except.error ErrKind.underflow, st) ∧
    st.top = Except.error ErrKind.underflow ∧
    st.pop.2.size = 0 ∧
    rb.read = (Except.error ErrKind.underflow, rb) ∧
    rb.read.2.size = 0 := by
  have hnil : st.data_ = [] := by
    simpa [Stack.empty, List.isEmpty_iff] using hst
  have hpop : st.pop = (Except.error ErrKind.underflow, st) := by
    simp [Stack.pop, hnil]
  have hread : rb.read = (Except.error ErrKind.underflow, rb) := by
    simp [RingBuffer.read, hrb]
  refine ⟨hpop, by simp [Stack.top, hnil], ?_, hread, ?_⟩
  · rw [hpop]
    simp [Stack.size, hnil]
  · rw [hread]
    have h0 : rb.size_ = 0 := by simpa [RingBuffer.empty] using hrb
    simp [RingBuffer.size, h0]

/-- Witness for C5: the default-constructed `Stack<Nat>` and
`RingBuffer<Nat, 2>` are empty, and the theorem applies to them. -/
theorem underflow_law_witness :
    (Stack.mk ([] : List Nat)).pop = (Except.error ErrKind.underflow, Stack.mk []) ∧
    (Stack.mk ([] : List Nat)).top = Except.error ErrKind.underflow ∧
    (Stack.mk ([] : List Nat)).pop.2.size = 0 ∧
    (RingBuffer.init Nat 2).read = (Except.error ErrKind.underflow, RingBuffer.init Nat 2) ∧
    (RingBuffer.init Nat 2).read.2.size = 0 :=
  underflow_law Nat 2 (Stack.mk []) rfl (RingBuffer.init Nat 2) rfl

end Containers

namespace Containers

/-! ### RingBuffer state invariants and contents abstraction -/

/-- The bounds invariant of `RingBuffer<T, N>`: the count stays in `[0, N]`
and both indices stay in `[0, N)`.  The length conjunct is the `std::array`
type constraint (the backing array always has exactly `N` slots), which the
list embedding of `buf_` has to carry explicitly. -/
def RingBuffer.Wf {T : Type} {N : Nat} (s : RingBuffer T N) : Prop :=
  s.buf_.length = N ∧ s.size_ ≤ N ∧ s.head_ < N ∧ s.tail_ < N

instance {T : Type} {N : Nat} (s : RingBuffer T N) : Decidable s.Wf := by
  unfold RingBuffer.Wf
  exact inferInstance

/-- The full representation invariant used in the refinement proofs: the
bounds, plus the index relation `tail_ = (head_ + size_) % N`. -/
def RingBuffer.Inv {T : Type} {N : Nat} (s : RingBuffer T N) : Prop :=
  s.buf_.length = N ∧ s.size_ ≤ N ∧ s.head_ < N ∧
    s.tail_ = (s.head_ + s.size_) % N

/-- The `n` live elements of a ring buffer with backing list `buf`, read
head `hd` and capacity `N`, oldest first. -/
def rbElems {T : Type} [Inhabited T] (buf : List T) (N : Nat) : Nat → Nat → List T
  | _, 0 => []
  | hd, n + 1 => buf.getD hd default :: rbElems buf N ((hd + 1) % N) n

/-- The abstract queue a ring buffer state denotes: its live elements,
oldest first. -/
def RingBuffer.toList {T : Type} {N : Nat} [Inhabited T] (s : RingBuffer T N) : List T :=
  rbElems s.buf_ N s.head_ s.size_

lemma getD_set_self {T : Type} (l : List T) (i : Nat) (v d : T) (h : i < l.length) :
    (l.set i v).getD i d = v := by
  simp [List.getD_eq_getElem?_getD, List.getElem?_set_self, h]

lemma getD_set_ne {T : Type} (l : List T) (i j : Nat) (v d : T) (h : i ≠ j) :
    (l.set i v).getD j d = l.getD j d := by
  simp [List.getD_eq_getElem?_getD, List.getElem?_set_ne h]

lemma rbElems_snoc {T : Type} [Inhabited T] (buf : List T) (N : Nat) (hN : 0 < N) :
    ∀ (n hd : Nat), hd < N →
      rbElems buf N hd (n + 1) =
        rbElems buf N hd n ++ [buf.getD ((hd + n) % N) default] := by
  intro n
  induction n with
  | zero =>
    intro hd hhd
    simp [rbElems, Nat.mod_eq_of_lt hhd]
  | succ n ih =>
    intro hd hhd
    have hhd' : (hd + 1) % N < N := Nat.mod_lt _ hN
    have harith : ((hd + 1) % N + n) % N = (hd + (n + 1)) % N := by
      have h1 : (hd + 1) % N + n ≡ hd + 1 + n [MOD N] :=
        Nat.ModEq.add_right n (Nat.mod_modEq (hd + 1) N)
      have h2 : hd + 1 + n = hd + (n + 1) := by omega
      rw [← h2]
      exact h1
    calc rbElems buf N hd (n + 2)
        = buf.getD hd default :: rbElems buf N ((hd + 1) % N) (n + 1) := rfl
      _ = buf.getD hd default ::
            (rbElems buf N ((hd + 1) % N) n ++
              [buf.getD (((hd + 1) % N + n) % N) default]) := by
            rw [ih ((hd + 1) % N) hhd']
      _ = rbElems buf N hd (n + 1) ++ [buf.getD ((hd + (n + 1)) % N) default] := by
            rw [harith]
            rfl

lemma rbElems_set_outside {T : Type} [Inhabited T] (buf : List T) (N : Nat) (hN : 0 < N)
    (j : Nat) (v : T) :
    ∀ (n hd : Nat), hd < N → (∀ i, i < n → (hd + i) % N ≠ j) →
      rbElems (buf.set j v) N hd n = rbElems buf N hd n := by
  intro n
  induction n with
  | zero =>
    intro hd _ _
    rfl
  | succ n ih =>
    intro hd hhd hout
    have hhdj : hd ≠ j := by
      have := hout 0 (Nat.succ_pos n)
      simpa [Nat.mod_eq_of_lt hhd] using this
    have hrec : ∀ i, i < n → ((hd + 1) % N + i) % N ≠ j := by
      intro i hi
      have h1 : ((hd + 1) % N + i) % N = (hd + (i + 1)) % N := by
        have ha : (hd + 1) % N + i ≡ hd + 1 + i [MOD N] :=
          Nat.ModEq.add_right i (Nat.mod_modEq (hd + 1) N)
        have hb : hd + 1 + i = hd + (i + 1) := by omega
        rw [← hb]
        exact ha
      rw [h1]
      exact hout (i + 1) (by omega)
    show (buf.set j v).getD hd default :: rbElems (buf.set j v) N ((hd + 1) % N) n =
      buf.getD hd default :: rbElems buf N ((hd + 1) % N) n
    rw [getD_set_ne buf j hd v default (fun h => hhdj h.symm),
        ih ((hd + 1) % N) (Nat.mod_lt _ hN) hrec]

end Containers

namespace Containers

/-- A successful `write` on a buffer satisfying the representation invariant:
it succeeds exactly below capacity, appends the value to the abstract queue,
and preserves the invariant. -/
lemma RingBuffer.write_spec {T : Type} {N : Nat} [Inhabited T] (hN : 0 < N)
    (s : RingBuffer T N) (hInv : s.Inv) (hfull : s.full = false) (v : T) :
    ∃ s' : RingBuffer T N, s.write v = (none, s') ∧ s'.Inv ∧
      s'.toList = s.toList ++ [v] ∧ s'.size_ = s.size_ + 1 := by
  obtain ⟨hlen, hsz, hhd, htl⟩ := hInv
  have hlt : s.size_ < N := by
    have hne : s.size_ ≠ N := by simpa [RingBuffer.full] using hfull
    omega
  refine ⟨{ s with buf_ := s.buf_.set s.tail_ v,
                   tail_ := (s.tail_ + 1) % N,
                   size_ := s.size_ + 1 },
          by simp [RingBuffer.write, hfull], ?_, ?_, rfl⟩
  · refine ⟨by simp [hlen], by show s.size_ + 1 ≤ N; omega, hhd, ?_⟩
    show (s.tail_ + 1) % N = (s.head_ + (s.size_ + 1)) % N
    rw [htl]
    have h1 : (s.head_ + s.size_) % N + 1 ≡ s.head_ + s.size_ + 1 [MOD N] :=
      Nat.ModEq.add_right 1 (Nat.mod_modEq (s.head_ + s.size_) N)
    simpa [Nat.add_assoc] using h1
  · show rbElems (s.buf_.set s.tail_ v) N s.head_ (s.size_ + 1) =
      rbElems s.buf_ N s.head_ s.size_ ++ [v]
    have hout : ∀ i, i < s.size_ → (s.head_ + i) % N ≠ s.tail_ := by
      intro i hi heq
      rw [htl] at heq
      have hcan : i ≡ s.size_ [MOD N] :=
        Nat.ModEq.add_left_cancel' s.head_ heq
      have : i % N = s.size_ % N := hcan
      rw [Nat.mod_eq_of_lt (by omega), Nat.mod_eq_of_lt hlt] at this
      omega
    rw [rbElems_snoc (s.buf_.set s.tail_ v) N hN s.size_ s.head_ hhd,
        rbElems_set_outside s.buf_ N hN s.tail_ v s.size_ s.head_ hhd hout,
        ← htl, getD_set_self s.buf_ s.tail_ v default (by rw [hlen]; rw [htl]; exact Nat.mod_lt _ hN)]

/-- A successful `read` on a buffer satisfying the representation invariant:
it succeeds exactly when non-empty, removes and returns the head of the
abstract queue, and preserves the invariant. -/
lemma RingBuffer.read_spec {T : Type} {N : Nat} [Inhabited T] (hN : 0 < N)
    (s : RingBuffer T N) (hInv : s.Inv) (hempty : s.empty = false) :
    ∃ (v : T) (s' : RingBuffer T N), s.read = (Except.ok v, s') ∧ s'.Inv ∧
      s.toList = v :: s'.toList ∧ s'.size_ = s.size_ - 1 := by
  obtain ⟨hlen, hsz, hhd, htl⟩ := hInv
  have hpos : 0 < s.size_ := by
    have hne : s.size_ ≠ 0 := by simpa [RingBuffer.empty] using hempty
    omega
  refine ⟨s.buf_.getD s.head_ default,
          { s with head_ := (s.head_ + 1) % N, size_ := s.size_ - 1 },
          by simp [RingBuffer.read, hempty], ?_, ?_, rfl⟩
  · refine ⟨hlen, by show s.size_ - 1 ≤ N; omega, Nat.mod_lt _ hN, ?_⟩
    show s.tail_ = ((s.head_ + 1) % N + (s.size_ - 1)) % N
    rw [htl]
    have h1 : (s.head_ + 1) % N + (s.size_ - 1) ≡
        s.head_ + 1 + (s.size_ - 1) [MOD N] :=
      Nat.ModEq.add_right (s.size_ - 1) (Nat.mod_modEq (s.head_ + 1) N)
    have h2 : s.head_ + 1 + (s.size_ - 1) = s.head_ + s.size_ := by omega
    rw [← h2]
    exact h1.symm
  · show rbElems s.buf_ N s.head_ s.size_ =
      s.buf_.getD s.head_ default :: rbElems s.buf_ N ((s.head_ + 1) % N) (s.size_ - 1)
    obtain ⟨k, hk⟩ : ∃ k, s.size_ = k + 1 := ⟨s.size_ - 1, by omega⟩
    rw [hk]
    rfl

/-! ### Claim C8: the RingBuffer bounds invariant -/

/-- Claim C8: for `N ≥ 1` the invariant `0 ≤ count ≤ N`, `head ∈ [0, N)`,
`tail ∈ [0, N)` holds in the default-constructed state and is preserved by
`write` and `read` whether they succeed or fail (the observers `empty`,
`full`, `size`, `capacity` are `const` and return the post-call object
unchanged, so only the mutators are stated); moreover `count == 0` exactly
when `empty()` and `count == N` exactly when `full()`. -/
theorem rb_invariant (T : Type) [Inhabited T] (N : Nat) (hN : 1 ≤ N) :
    (RingBuffer.init T N).Wf ∧
    (∀ (s : RingBuffer T N) (v : T), s.Wf → ((s.write v).2).Wf) ∧
    (∀ s : RingBuffer T N, s.Wf → (s.read).2.Wf) ∧
    (∀ s : RingBuffer T N, s.empty = true ↔ s.size_ = 0) ∧
    (∀ s : RingBuffer T N, s.full = true ↔ s.size_ = N) := by
  refine ⟨⟨by simp [RingBuffer.init], by simp [RingBuffer.init], ?_, ?_⟩, ?_, ?_, ?_, ?_⟩
  · simpa [RingBuffer.init] using hN
  · simpa [RingBuffer.init] using hN
  · intro s v hwf
    obtain ⟨hlen, hsz, hhd, htl⟩ := hwf
    by_cases hf : s.full = true
    · simp [RingBuffer.write, hf, RingBuffer.Wf, hlen, hsz, hhd, htl]
    · have hf' : s.full = false := by simpa using hf
      have hne : s.size_ ≠ N := by simpa [RingBuffer.full] using hf'
      refine ⟨?_, ?_, ?_, ?_⟩ <;>
        simp [RingBuffer.write, hf', hlen, hhd, Nat.mod_lt _ hN] <;> omega
  · intro s hwf
    obtain ⟨hlen, hsz, hhd, htl⟩ := hwf
    by_cases he : s.empty = true
    · simp [RingBuffer.read, he, RingBuffer.Wf, hlen, hsz, hhd, htl]
    · have he' : s.empty = false := by simpa using he
      refine ⟨?_, ?_, ?_, ?_⟩ <;>
        simp [RingBuffer.read, he', hlen, htl, Nat.mod_lt _ hN] <;> omega
  · intro s
    simp [RingBuffer.empty]
  · intro s
    simp [RingBuffer.full]

/-- Witness for C8: the invariant machinery at `RingBuffer<Nat, 2>`. -/
theorem rb_invariant_witness :
    (RingBuffer.init Nat 2).Wf ∧
    (∀ (s : RingBuffer Nat 2) (v : Nat), s.Wf → ((s.write v).2).Wf) ∧
    (∀ s : RingBuffer Nat 2, s.Wf → (s.read).2.Wf) ∧
    (∀ s : RingBuffer Nat 2, s.empty = true ↔ s.size_ = 0) ∧
    (∀ s : RingBuffer Nat 2, s.full = true ↔ s.size_ = 2) :=
  rb_invariant Nat 2 (by decide)

end Containers

namespace Containers

/-! ### Claims C9, C10, C7 -/

/-- The states a `RingBuffer<T, N>` object can be in: reachable from the
default-constructed state by `write` and `read` calls (a failed call leaves
the object it was called on, which is already reachable). -/
inductive RingBuffer.Reachable {T : Type} {N : Nat} [Inhabited T] :
    RingBuffer T N → Prop where
  | init : Reachable (RingBuffer.init T N)
  | wr (s : RingBuffer T N) (v : T) : Reachable s → Reachable ((s.write v).2)
  | rd (s : RingBuffer T N) : Reachable s → Reachable ((s.read).2)

/-- Claim C9: every state reachable from the default-constructed
`RingBuffer<T, N>` (`N ≥ 1`) via `write` and `read` satisfies
`tail == (head + size) mod N`; successful calls maintain it and failed
calls do not touch the state. -/
theorem rb_tail_relation (T : Type) [Inhabited T] (N : Nat) (hN : 1 ≤ N)
    (s : RingBuffer T N) (h : s.Reachable) :
    s.tail_ = (s.head_ + s.size_) % N := by
  induction h with
  | init => simp [RingBuffer.init]
  | wr s v _ ih =>
    by_cases hf : s.full = true
    · simpa [RingBuffer.write, hf] using ih
    · have hf' : s.full = false := by simpa using hf
      simp only [RingBuffer.write, hf', Bool.false_eq_true, if_false]
      show (s.tail_ + 1) % N = (s.head_ + (s.size_ + 1)) % N
      rw [ih]
      have h1 : (s.head_ + s.size_) % N + 1 ≡ s.head_ + s.size_ + 1 [MOD N] :=
        Nat.ModEq.add_right 1 (Nat.mod_modEq (s.head_ + s.size_) N)
      simpa [Nat.add_assoc] using h1
  | rd s hs ih =>
    by_cases he : s.empty = true
    · simpa [RingBuffer.read, he] using ih
    · have he' : s.empty = false := by simpa using he
      have hpos : 0 < s.size_ := by
        have : s.size_ ≠ 0 := by simpa [RingBuffer.empty] using he'
        omega
      simp only [RingBuffer.read, he', Bool.false_eq_true, if_false]
      show s.tail_ = ((s.head_ + 1) % N + (s.size_ - 1)) % N
      rw [ih]
      have h1 : (s.head_ + 1) % N + (s.size_ - 1) ≡
          s.head_ + 1 + (s.size_ - 1) [MOD N] :=
        Nat.ModEq.add_right (s.size_ - 1) (Nat.mod_modEq (s.head_ + 1) N)
      have h2 : s.head_ + 1 + (s.size_ - 1) = s.head_ + s.size_ := by omega
      rw [← h2]
      exact h1.symm

/-- Witness for C9: the relation at the default-constructed
`RingBuffer<Nat, 3>`. -/
theorem rb_tail_relation_witness :
    (RingBuffer.init Nat 3).tail_ =
      ((RingBuffer.init Nat 3).head_ + (RingBuffer.init Nat 3).size_) % 3 :=
  rb_tail_relation Nat 3 (by decide) (RingBuffer.init Nat 3) RingBuffer.Reachable.init

/-- In a capacity-zero buffer the count can never leave `0`: `full()` holds
whenever `empty()` does, so every `write` is rejected. -/
lemma RingBuffer.reachable_zero_size {T : Type} [Inhabited T]
    (s : RingBuffer T 0) (h : s.Reachable) : s.size_ = 0 := by
  induction h with
  | init => rfl
  | wr s v _ ih =>
    have hf : s.full = true := by simp [RingBuffer.full, ih]
    simpa [RingBuffer.write, hf] using ih
  | rd s hs ih =>
    have he : s.empty = true := by simp [RingBuffer.empty, ih]
    simpa [RingBuffer.read, he] using ih

/-- Claim C10: on a `RingBuffer<T, 0>` (which the non-type parameter
permits), every reachable state has `empty()` and `full()` simultaneously
true, every `write` fails with `overflow` and every `read` fails with
`underflow`, each leaving the state untouched; the guards fire before any
index arithmetic, so in the embedding every operation is a total function
returning the unchanged state. -/
theorem rb_zero_capacity (T : Type) [Inhabited T]
    (s : RingBuffer T 0) (h : s.Reachable) :
    s.empty = true ∧ s.full = true ∧
    (∀ v : T, s.write v = (some ErrKind.overflow, s)) ∧
    s.read = (Except.error ErrKind.underflow, s) := by
  have h0 : s.size_ = 0 := RingBuffer.reachable_zero_size s h
  have he : s.empty = true := by simp [RingBuffer.empty, h0]
  have hf : s.full = true := by simp [RingBuffer.full, h0]
  exact ⟨he, hf, fun v => by simp [RingBuffer.write, hf], by simp [RingBuffer.read, he]⟩

/-- Witness for C10: the default-constructed `RingBuffer<Nat, 0>`. -/
theorem rb_zero_capacity_witness :
    (RingBuffer.init Nat 0).empty = true ∧ (RingBuffer.init Nat 0).full = true ∧
    (∀ v : Nat, (RingBuffer.init Nat 0).write v =
      (some ErrKind.overflow, RingBuffer.init Nat 0)) ∧
    (RingBuffer.init Nat 0).read =
      (Except.error ErrKind.underflow, RingBuffer.init Nat 0) :=
  rb_zero_capacity Nat (RingBuffer.init Nat 0) RingBuffer.Reachable.init

/-- Claim C7: on any well-formed empty `RingBuffer<T, 1>`, `write(v)`
followed immediately by `read()` succeeds, the read returns exactly `v`,
and the buffer is empty again with `size()` zero. -/
theorem rb_roundtrip (T : Type) [Inhabited T] (s : RingBuffer T 1)
    (hwf : s.Wf) (he : s.empty = true) (v : T) :
    ∃ s₁ s₂ : RingBuffer T 1,
      s.write v = (none, s₁) ∧ s₁.read = (Except.ok v, s₂) ∧
      s₂.empty = true ∧ s₂.size = 0 := by
  obtain ⟨hlen, hsz, hhd, htl⟩ := hwf
  have h0 : s.size_ = 0 := by simpa [RingBuffer.empty] using he
  have hhd0 : s.head_ = 0 := by omega
  have htl0 : s.tail_ = 0 := by omega
  have hf : s.full = false := by simp [RingBuffer.full, h0]
  refine ⟨{ s with buf_ := s.buf_.set s.tail_ v, tail_ := (s.tail_ + 1) % 1,
                   size_ := s.size_ + 1 },
          { s with buf_ := s.buf_.set s.tail_ v, head_ := (s.head_ + 1) % 1,
                   tail_ := (s.tail_ + 1) % 1, size_ := s.size_ + 1 - 1 },
          by simp [RingBuffer.write, hf], ?_, ?_, ?_⟩
  · have hne : s.size_ + 1 ≠ 0 := by omega
    simp only [RingBuffer.read, RingBuffer.empty]
    rw [if_neg (by simp [hne])]
    have hget : (s.buf_.set s.tail_ v).getD s.head_ default = v := by
      rw [hhd0, htl0]
      exact getD_set_self s.buf_ 0 v default (by omega)
    rw [hget]
  · simp [RingBuffer.empty, h0]
  · simp [RingBuffer.size, h0]

/-- Witness for C7: the default-constructed `RingBuffer<Nat, 1>` and the
value `7`. -/
theorem rb_roundtrip_witness :
    ∃ s₁ s₂ : RingBuffer Nat 1,
      (RingBuffer.init Nat 1).write 7 = (none, s₁) ∧
      s₁.read = (Except.ok 7, s₂) ∧ s₂.empty = true ∧ s₂.size = 0 :=
  rb_roundtrip Nat (RingBuffer.init Nat 1) (by decide) (by decide) 7

end Containers

namespace Containers

/-! ### Operation sequences on a RingBuffer -/

/-- One operation of a client of `RingBuffer<T, N>`: a `write` of a value or
a `read`. -/
inductive RBOp (T : Type) where
  | write (v : T)
  | read
  deriving DecidableEq

/-- The values passed to the writes of an operation sequence, in order. -/
def writesOf {T : Type} : List (RBOp T) → List T
  | [] => []
  | RBOp.write v :: ops => v :: writesOf ops
  | RBOp.read :: ops => writesOf ops

/-- Run a sequence of operations against a buffer: stops at the first
failing operation with its error; otherwise returns the final state and the
values the reads returned, in order. -/
def RingBuffer.runOps {T : Type} {N : Nat} [Inhabited T] :
    RingBuffer T N → List (RBOp T) → Except ErrKind (RingBuffer T N × List T)
  | s, [] => Except.ok (s, [])
  | s, RBOp.write v :: ops =>
    match s.write v with
    | (some e, _) => Except.error e
    | (none, s') => RingBuffer.runOps s' ops
  | s, RBOp.read :: ops =>
    match s.read with
    | (Except.error e, _) => Except.error e
    | (Except.ok v, s') =>
      (RingBuffer.runOps s' ops).map (fun p => (p.1, v :: p.2))

/-- The default-constructed buffer satisfies the representation invariant
(for positive capacity) and denotes the empty queue. -/
lemma RingBuffer.init_inv {T : Type} [Inhabited T] {N : Nat} (hN : 0 < N) :
    (RingBuffer.init T N).Inv ∧ (RingBuffer.init T N).toList = [] :=
  ⟨⟨by simp [RingBuffer.init], by simp [RingBuffer.init],
    by simpa [RingBuffer.init] using hN, by simp [RingBuffer.init]⟩, rfl⟩

/-- A successful run from an invariant state: the read outputs are the
oldest pending-then-written values in order, and the final state holds the
rest. -/
lemma RingBuffer.runOps_spec {T : Type} {N : Nat} [Inhabited T] (hN : 0 < N) :
    ∀ (ops : List (RBOp T)) (s : RingBuffer T N), s.Inv →
      ∀ (sf : RingBuffer T N) (outs : List T),
        RingBuffer.runOps s ops = Except.ok (sf, outs) →
        sf.Inv ∧ outs = (s.toList ++ writesOf ops).take outs.length ∧
          sf.toList = (s.toList ++ writesOf ops).drop outs.length := by
  intro ops
  induction ops with
  | nil =>
    intro s hInv sf outs h
    simp only [RingBuffer.runOps, Except.ok.injEq, Prod.mk.injEq] at h
    obtain ⟨rfl, rfl⟩ := h
    exact ⟨hInv, by simp [writesOf], by simp [writesOf]⟩
  | cons op ops ih =>
    cases op with
    | write v =>
      intro s hInv sf outs h
      by_cases hf : s.full = true
      · have hw : s.write v = (some ErrKind.overflow, s) := by
          simp [RingBuffer.write, hf]
        simp [RingBuffer.runOps, hw] at h
      · have hf' : s.full = false := by simpa using hf
        obtain ⟨s', hw, hInv', hlist, hsz⟩ :=
          RingBuffer.write_spec hN s hInv hf' v
        simp only [RingBuffer.runOps, hw] at h
        obtain ⟨hfInv, hout, hfl⟩ := ih s' hInv' sf outs h
        refine ⟨hfInv, ?_, ?_⟩
        · rw [hout, hlist]
          simp [writesOf]
        · rw [hfl, hlist]
          simp [writesOf]
    | read =>
      intro s hInv sf outs h
      by_cases he : s.empty = true
      · have hr : s.read = (Except.error ErrKind.underflow, s) := by
          simp [RingBuffer.read, he]
        simp [RingBuffer.runOps, hr] at h
      · have he' : s.empty = false := by simpa using he
        obtain ⟨v, s', hr, hInv', hlist, hsz⟩ :=
          RingBuffer.read_spec hN s hInv he'
        simp only [RingBuffer.runOps, hr] at h
        cases h' : RingBuffer.runOps s' ops with
        | error e =>
          rw [h'] at h
          simp [Except.map] at h
        | ok p =>
          rw [h'] at h
          simp only [Except.map, Except.ok.injEq, Prod.mk.injEq] at h
          obtain ⟨h1, h2⟩ := h
          obtain ⟨hfInv, hout, hfl⟩ := ih s' hInv' p.1 p.2 (by rw [h'])
          subst h1
          rw [← h2]
          refine ⟨hfInv, ?_, ?_⟩
          · rw [hlist]
            simp only [writesOf, List.cons_append, List.length_cons,
              List.take_succ_cons, List.cons.injEq, true_and]
            exact hout
          · rw [hlist]
            simpa [writesOf] using hfl

/-- A successful run of `pre ++ suf` contains a successful run of `pre`. -/
lemma RingBuffer.runOps_append_ok {T : Type} {N : Nat} [Inhabited T] :
    ∀ (pre suf : List (RBOp T)) (s : RingBuffer T N)
      (r : RingBuffer T N × List T),
      RingBuffer.runOps s (pre ++ suf) = Except.ok r →
      ∃ r₁ : RingBuffer T N × List T,
        RingBuffer.runOps s pre = Except.ok r₁ := by
  intro pre
  induction pre with
  | nil =>
    intro suf s r _
    exact ⟨(s, []), rfl⟩
  | cons op pre ih =>
    cases op with
    | write v =>
      intro suf s r h
      rcases hw : s.write v with ⟨o, s'⟩
      cases o with
      | some e =>
        simp [RingBuffer.runOps, hw] at h
      | none =>
        simp only [List.cons_append, RingBuffer.runOps, hw] at h ⊢
        exact ih suf s' r h
    | read =>
      intro suf s r h
      rcases hr : s.read with ⟨o, s'⟩
      cases o with
      | error e =>
        simp [RingBuffer.runOps, hr] at h
      | ok v =>
        simp only [List.cons_append, RingBuffer.runOps, hr, List.append_eq] at h ⊢
        cases h' : RingBuffer.runOps s' (pre ++ suf) with
        | error e =>
          rw [h'] at h
          simp [Except.map] at h
        | ok p =>
          obtain ⟨r₁, hr₁⟩ := ih suf s' p h'
          rw [hr₁]
          exact ⟨(r₁.1, v :: r₁.2), rfl⟩

/-! ### Claim C2: the FIFO law -/

/-- Claim C2: starting from the default-constructed `RingBuffer<T, N>`
(`N ≥ 1`), for every operation sequence in which every write happens when
the buffer is not full and every read when it is not empty (exactly the
sequences `runOps` completes without an error), the values the reads return
are the values the writes passed, in the same order (the reads form the
first `outs.length` written values), and after every prefix the size lies
in `[0, N]`. -/
theorem rb_fifo_law (T : Type) [Inhabited T] (N : Nat) (hN : 1 ≤ N)
    (ops : List (RBOp T)) (sf : RingBuffer T N) (outs : List T)
    (h : RingBuffer.runOps (RingBuffer.init T N) ops = Except.ok (sf, outs)) :
    outs = (writesOf ops).take outs.length ∧
    (∀ pre suf : List (RBOp T), ops = pre ++ suf →
      ∃ (s₁ : RingBuffer T N) (o₁ : List T),
        RingBuffer.runOps (RingBuffer.init T N) pre = Except.ok (s₁, o₁) ∧
        0 ≤ s₁.size ∧ s₁.size ≤ N) := by
  obtain ⟨hInv0, hlist0⟩ := RingBuffer.init_inv (T := T) (N := N) hN
  constructor
  · have := (RingBuffer.runOps_spec hN ops (RingBuffer.init T N) hInv0 sf outs h).2.1
    rwa [hlist0, List.nil_append] at this
  · intro pre suf heq
    obtain ⟨r₁, hr₁⟩ :=
      RingBuffer.runOps_append_ok pre suf (RingBuffer.init T N) (sf, outs)
        (heq ▸ h)
    have hInv₁ :=
      (RingBuffer.runOps_spec hN pre (RingBuffer.init T N) hInv0 r₁.1 r₁.2
        (by rw [hr₁])).1
    exact ⟨r₁.1, r₁.2, by rw [hr₁], Nat.zero_le _, hInv₁.2.1⟩

/-- Witness for C2: `RingBuffer<Nat, 1>` with the sequence
write 5, read, write 6, read. -/
theorem rb_fifo_law_witness :
    ([5, 6] : List Nat) =
      (writesOf [RBOp.write 5, RBOp.read, RBOp.write 6, RBOp.read]).take
        ([5, 6] : List Nat).length ∧
    (∀ pre suf : List (RBOp Nat),
      [RBOp.write 5, RBOp.read, RBOp.write 6, RBOp.read] = pre ++ suf →
      ∃ (s₁ : RingBuffer Nat 1) (o₁ : List Nat),
        RingBuffer.runOps (RingBuffer.init Nat 1) pre = Except.ok (s₁, o₁) ∧
        0 ≤ s₁.size ∧ s₁.size ≤ 1) :=
  rb_fifo_law Nat 1 (by decide)
    [RBOp.write 5, RBOp.read, RBOp.write 6, RBOp.read]
    (RingBuffer.mk [6] 0 0 0) [5, 6] (by rfl)

end Containers

namespace Containers

/-- Writing a list of values one by one succeeds as long as capacity
remains, producing no read output and adding the list's length to the
count. -/
lemma RingBuffer.write_list {T : Type} {N : Nat} [Inhabited T] (hN : 0 < N) :
    ∀ (vs : List T) (s : RingBuffer T N), s.Inv → s.size_ + vs.length ≤ N →
      ∃ sf : RingBuffer T N,
        RingBuffer.runOps s (vs.map RBOp.write) = Except.ok (sf, []) ∧
        sf.Inv ∧ sf.size_ = s.size_ + vs.length := by
  intro vs
  induction vs with
  | nil =>
    intro s hInv _
    exact ⟨s, rfl, hInv, by simp⟩
  | cons v vs ih =>
    intro s hInv hroom
    have hf : s.full = false := by
      have : s.size_ ≠ N := by simp at hroom; omega
      simp [RingBuffer.full, this]
    obtain ⟨s', hw, hInv', _, hsz⟩ := RingBuffer.write_spec hN s hInv hf v
    obtain ⟨sf, hrun, hfInv, hfsz⟩ :=
      ih s' hInv' (by simp at hroom ⊢; omega)
    refine ⟨sf, ?_, hfInv, by simp [hfsz, hsz]; omega⟩
    simp only [List.map_cons, RingBuffer.runOps, hw]
    exact hrun

/-! ### Claim C4: the overflow law -/

/-- Claim C4: for `N ≥ 1`, after `N` successful writes from the
default-constructed buffer with no intervening reads, `full()` is true and
a further write fails with the `overflow` condition, returning the buffer
completely unchanged — the same `head_`, `tail_`, `size_` (still `N`) and
stored elements. -/
theorem rb_overflow_law (T : Type) [Inhabited T] (N : Nat) (hN : 1 ≤ N)
    (vs : List T) (hlen : vs.length = N) (v : T) :
    ∃ sf : RingBuffer T N,
      RingBuffer.runOps (RingBuffer.init T N) (vs.map RBOp.write) =
        Except.ok (sf, []) ∧
      sf.full = true ∧ sf.size = N ∧
      sf.write v = (some ErrKind.overflow, sf) := by
  obtain ⟨hInv0, _⟩ := RingBuffer.init_inv (T := T) (N := N) hN
  obtain ⟨sf, hrun, hfInv, hfsz⟩ :=
    RingBuffer.write_list hN vs (RingBuffer.init T N) hInv0
      (by simp [RingBuffer.init, hlen])
  have hsz : sf.size_ = N := by
    simpa [RingBuffer.init, hlen] using hfsz
  have hf : sf.full = true := by simp [RingBuffer.full, hsz]
  exact ⟨sf, hrun, hf, by simp [RingBuffer.size, hsz],
    by simp [RingBuffer.write, hf]⟩

/-- Witness for C4: `RingBuffer<Nat, 2>` filled by writing 3 and 4, then a
rejected write of 9. -/
theorem rb_overflow_law_witness :
    ∃ sf : RingBuffer Nat 2,
      RingBuffer.runOps (RingBuffer.init Nat 2)
        (([3, 4] : List Nat).map RBOp.write) = Except.ok (sf, []) ∧
      sf.full = true ∧ sf.size = 2 ∧
      sf.write 9 = (some ErrKind.overflow, sf) :=
  rb_overflow_law Nat 2 (by decide) [3, 4] (by decide) 9

end Containers

namespace Containers

/-! ### Operation sequences on a Stack, and claim C3 -/

/-- One operation of a client of `Stack<T>`: a `push` of a value or a
`pop`. -/
inductive StackOp (T : Type) where
  | push (v : T)
  | pop
  deriving DecidableEq

/-- Run a sequence of operations against a stack: stops at the first failing
operation with its error; otherwise returns the final stack and the values
the pops returned, in order. -/
def Stack.runOps {T : Type} : Stack T → List (StackOp T) → Except ErrKind (Stack T × List T)
  | s, [] => Except.ok (s, [])
  | s, StackOp.push v :: ops => Stack.runOps (s.push v) ops
  | s, StackOp.pop :: ops =>
    match s.pop with
    | (Except.error e, _) => Except.error e
    | (Except.ok v, s') =>
      (Stack.runOps s' ops).map (fun p => (p.1, v :: p.2))

/-- The abstract LIFO machine the spec describes, the stack being the list
of not-yet-popped pushed values with the most recently pushed first: `push`
prepends, and `pop` removes and returns the most recently pushed
not-yet-popped value. -/
def lifoRun {T : Type} : List T → List (StackOp T) → Except ErrKind (List T × List T)
  | l, [] => Except.ok (l, [])
  | l, StackOp.push v :: ops => lifoRun (v :: l) ops
  | l, StackOp.pop :: ops =>
    match l with
    | [] => Except.error ErrKind.underflow
    | v :: rest =>
      (lifoRun rest ops).map (fun p => (p.1, v :: p.2))

/-- The number of pushes in an operation sequence. -/
def countPush {T : Type} : List (StackOp T) → Nat
  | [] => 0
  | StackOp.push _ :: ops => countPush ops + 1
  | StackOp.pop :: ops => countPush ops

/-- The number of pops in an operation sequence. -/
def countPop {T : Type} : List (StackOp T) → Nat
  | [] => 0
  | StackOp.push _ :: ops => countPop ops
  | StackOp.pop :: ops => countPop ops + 1

/-- The concrete stack refines the abstract LIFO machine: running any
operation sequence against the vector-backed stack holding the reversal of
the abstract list gives exactly the abstract machine's outcome. -/
lemma Stack.runOps_lifo {T : Type} :
    ∀ (ops : List (StackOp T)) (l : List T),
      Stack.runOps (Stack.mk l.reverse) ops =
        (lifoRun l ops).map (fun p => (Stack.mk p.1.reverse, p.2)) := by
  intro ops
  induction ops with
  | nil =>
    intro l
    simp [Stack.runOps, lifoRun, Except.map]
  | cons op ops ih =>
    cases op with
    | push v =>
      intro l
      have hpush : (Stack.mk l.reverse).push v = Stack.mk (v :: l).reverse := by
        simp [Stack.push]
      rw [show Stack.runOps (Stack.mk l.reverse) (StackOp.push v :: ops) =
            Stack.runOps ((Stack.mk l.reverse).push v) ops from rfl,
          hpush, ih (v :: l)]
      rfl
    | pop =>
      intro l
      cases l with
      | nil =>
        simp [Stack.runOps, Stack.pop, lifoRun, Except.map]
      | cons v rest =>
        have hpop : (Stack.mk (v :: rest).reverse).pop =
            (Except.ok v, Stack.mk rest.reverse) := by
          simp [Stack.pop, List.reverse_cons, List.getLast?_concat,
            List.dropLast_concat]
        simp only [Stack.runOps, lifoRun, hpop, ih rest]
        cases hl : lifoRun rest ops with
        | error e => simp [Except.map]
        | ok p => simp [Except.map]

/-- A successful run relates the sizes: the final size plus the number of
pops equals the initial size plus the number of pushes. -/
lemma Stack.runOps_size {T : Type} :
    ∀ (ops : List (StackOp T)) (s sf : Stack T) (outs : List T),
      Stack.runOps s ops = Except.ok (sf, outs) →
      sf.size + countPop ops = s.size + countPush ops := by
  intro ops
  induction ops with
  | nil =>
    intro s sf outs h
    simp only [Stack.runOps, Except.ok.injEq, Prod.mk.injEq] at h
    obtain ⟨rfl, rfl⟩ := h
    simp [countPush, countPop]
  | cons op ops ih =>
    cases op with
    | push v =>
      intro s sf outs h
      have := ih (s.push v) sf outs h
      simp only [countPush, countPop]
      have hsz : (s.push v).size = s.size + 1 := by
        simp [Stack.push, Stack.size]
      omega
    | pop =>
      intro s sf outs h
      cases hd : s.data_.getLast? with
      | none =>
        have hpop : s.pop = (Except.error ErrKind.underflow, s) := by
          simp [Stack.pop, hd]
        simp [Stack.runOps, hpop] at h
      | some v =>
        have hne : s.data_ ≠ [] := by
          intro hnil
          rw [hnil] at hd
          simp at hd
        have hpop : s.pop = (Except.ok v, Stack.mk s.data_.dropLast) := by
          simp [Stack.pop, hd]
        simp only [Stack.runOps, hpop] at h
        cases h' : Stack.runOps (Stack.mk s.data_.dropLast) ops with
        | error e =>
          rw [h'] at h
          simp [Except.map] at h
        | ok p =>
          rw [h'] at h
          simp only [Except.map, Except.ok.injEq, Prod.mk.injEq] at h
          obtain ⟨h1, _⟩ := h
          have := ih (Stack.mk s.data_.dropLast) p.1 p.2 (by rw [h'])
          rw [h1] at this
          have hlen : (Stack.mk s.data_.dropLast).size = s.size - 1 := by
            simp [Stack.size, List.length_dropLast]
        
          have hpos : 1 ≤ s.size := by
            have := List.length_pos.mpr hne
            simpa [Stack.size] using this
          simp only [countPush, countPop]
          omega

/-- A successful run of `pre ++ suf` contains a successful run of `pre`. -/
lemma Stack.runOps_initial_ok {T : Type} :
    ∀ (pre suf : List (StackOp T)) (s : Stack T) (r : Stack T × List T),
      Stack.runOps s (pre ++ suf) = Except.ok r →
      ∃ r₁ : Stack T × List T, Stack.runOps s pre = Except.ok r₁ := by
  intro pre
  induction pre with
  | nil =>
    intro suf s r _
    exact ⟨(s, []), rfl⟩
  | cons op pre ih =>
    cases op with
    | push v =>
      intro suf s r h
      exact ih suf (s.push v) r h
    | pop =>
      intro suf s r h
      rcases hp : s.pop with ⟨o, s'⟩
      cases o with
      | error e =>
        simp [Stack.runOps, hp] at h
      | ok v =>
        simp only [List.cons_append, Stack.runOps, hp, List.append_eq] at h ⊢
        cases h' : Stack.runOps s' (pre ++ suf) with
        | error e =>
          rw [h'] at h
          simp [Except.map] at h
        | ok p =>
          obtain ⟨r₁, hr₁⟩ := ih suf s' p h'
          rw [hr₁]
          exact ⟨(r₁.1, v :: r₁.2), rfl⟩

/-- Claim C3: starting from the empty `Stack<T>`, for every operation
sequence in which every pop happens when the stack is non-empty (exactly
the sequences `runOps` completes without an error), the popped values are
the not-yet-popped pushed values in reverse push order — the run agrees
with the abstract LIFO machine `lifoRun` — and after every prefix the size
equals the number of pushes minus the number of pops of the prefix, the
pops never outnumbering the pushes. -/
theorem stack_lifo_law (T : Type) (ops : List (StackOp T))
    (sf : Stack T) (outs : List T)
    (h : Stack.runOps (Stack.mk []) ops = Except.ok (sf, outs)) :
    lifoRun [] ops = Except.ok (sf.data_.reverse, outs) ∧
    (∀ pre suf : List (StackOp T), ops = pre ++ suf →
      ∃ (s₁ : Stack T) (o₁ : List T),
        Stack.runOps (Stack.mk []) pre = Except.ok (s₁, o₁) ∧
        countPop pre ≤ countPush pre ∧
        s₁.size = countPush pre - countPop pre) := by
  constructor
  · have hagree := Stack.runOps_lifo ops ([] : List T)
    rw [show (Stack.mk (([] : List T)).reverse) = Stack.mk ([] : List T) from rfl,
        h] at hagree
    cases hl : lifoRun ([] : List T) ops with
    | error e =>
      rw [hl] at hagree
      simp [Except.map] at hagree
    | ok p =>
      rw [hl] at hagree
      simp only [Except.map, Except.ok.injEq, Prod.mk.injEq] at hagree
      obtain ⟨h1, h2⟩ := hagree
      subst h1
      subst h2
      simp
  · intro pre suf heq
    obtain ⟨r₁, hr₁⟩ :=
      Stack.runOps_initial_ok pre suf (Stack.mk []) (sf, outs) (heq ▸ h)
    have hsz := Stack.runOps_size pre (Stack.mk []) r₁.1 r₁.2 (by rw [hr₁])
    have h0 : (Stack.mk ([] : List T)).size = 0 := rfl
    exact ⟨r₁.1, r₁.2, by rw [hr₁], by omega, by omega⟩

/-- Witness for C3: push 1, push 2, pop, pop, push 3 on `Stack<Nat>`. -/
theorem stack_lifo_law_witness :
    lifoRun []
      [StackOp.push (1 : Nat), StackOp.push 2, StackOp.pop, StackOp.pop,
        StackOp.push 3] =
      Except.ok ((Stack.mk ([3] : List Nat)).data_.reverse, [2, 1]) ∧
    (∀ pre suf : List (StackOp Nat),
      [StackOp.push (1 : Nat), StackOp.push 2, StackOp.pop, StackOp.pop,
        StackOp.push 3] = pre ++ suf →
      ∃ (s₁ : Stack Nat) (o₁ : List Nat),
        Stack.runOps (Stack.mk []) pre = Except.ok (s₁, o₁) ∧
        countPop pre ≤ countPush pre ∧
        s₁.size = countPush pre - countPop pre) :=
  stack_lifo_law Nat
    [StackOp.push 1, StackOp.push 2, StackOp.pop, StackOp.pop, StackOp.push 3]
    (Stack.mk [3]) [2, 1] (by rfl)

end Containers
